import Mathlib

/-!
Verification of the kernel-primitive specification for the Zephyr tutorial corpus.

The tutorial programs under `src/` only *call* the kernel primitives
(heap allocator, slab allocator, semaphore, mutex, message queue, work
queue); the primitives themselves live in the external kernel and are
specified in `spec.md` §§4.2–4.7.  Following the specification, we build a
shallow embedding of each primitive and prove the claimed properties.
The buffer-index arithmetic of the semaphore producer/consumer example is
embedded directly from its source (`part4/semaphore/src/main.c`).
-/

/-- Error taxonomy of spec §7. -/
inductive KErr where
  | OUT_OF_MEMORY
  | TIMED_OUT
  | WOULD_BLOCK
  | INVALID_STATE
deriving Repr, DecidableEq

/-- Timeout modes of spec §4.1: no-wait, forever, or a finite duration. -/
inductive Timeout where
  | noWait
  | forever
  | msec (n : Nat)
deriving Repr, DecidableEq

/-! ## Heap allocator (spec §4.2, scenario §8.1)

Modelled from the spec: the heap implementation (`k_heap_alloc` /
`k_heap_free` behind `K_HEAP_DEFINE(my_heap, 1024)` in
`src/docs/examples/part3/memory/src/main.c`) is not part of the
repository.  Per §4.2 the heap is a backing region partitioned into
variable-size blocks, each with a header recording size and free status;
`allocate` is first-fit with block splitting, `free` coalesces with
adjacent free blocks.  We represent the partition as a list of blocks in
address order; a block records its payload size and free status, and each
block additionally occupies `HDR` bytes of header.  A pointer is the byte
offset of a block's payload inside the backing region. -/

structure HeapBlock where
  size : Nat
  free : Bool
deriving Repr, DecidableEq

abbrev Heap := List HeapBlock

/-- Header overhead per block, in bytes. -/
def HDR : Nat := 8

/-- A block is split only when the remainder can hold a header plus a
minimum payload (spec §4.2: "splits the block if the remainder is large
enough to hold header + minimum payload"). -/
def MIN_SPLIT : Nat := HDR + 8

/-- Fresh heap over a backing region of `cap` bytes: one maximal free
block (its header consumes `HDR` of the region). -/
def Heap.init (cap : Nat) : Heap := [⟨cap - HDR, true⟩]

/-- First-fit search, carrying the byte offset of the current block's
header; returns the payload pointer and the updated partition. -/
def heapAllocAux (size : Nat) : Nat → Heap → Option (Nat × Heap)
  | _, [] => none
  | off, b :: rest =>
    if b.free && decide (size ≤ b.size) then
      if MIN_SPLIT ≤ b.size - size then
        some (off + HDR, ⟨size, false⟩ :: ⟨b.size - size - HDR, true⟩ :: rest)
      else
        some (off + HDR, ⟨b.size, false⟩ :: rest)
    else
      match heapAllocAux size (off + HDR + b.size) rest with
      | some (p, rest') => some (p, b :: rest')
      | none => none

/-- Operation `allocate(size) -> pointer | ENOMEM` (spec §4.2): never blocks,
first-fit, splits when worthwhile.  `none` is the `OUT_OF_MEMORY`
failure. -/
def heapAlloc (h : Heap) (size : Nat) : Option (Nat × Heap) :=
  heapAllocAux size 0 h

/-- Mark the allocated block whose payload sits at offset `p` as free;
fails (`INVALID_STATE` contract violation) if no such block exists. -/
def markFree (p : Nat) : Nat → Heap → Option Heap
  | _, [] => none
  | off, b :: rest =>
    if off + HDR = p && !b.free then
      some (⟨b.size, true⟩ :: rest)
    else
      match markFree p (off + HDR + b.size) rest with
      | some rest' => some (b :: rest')
      | none => none

/-- Prepend block `a` to an already-coalesced partition, merging it with
the first block when both are free (the merged block spans both extents,
header included). -/
def coalesceStep (a : HeapBlock) : Heap → Heap
  | [] => [a]
  | b :: tl =>
    if a.free && b.free then ⟨a.size + HDR + b.size, true⟩ :: tl
    else a :: b :: tl

/-- Merge every run of adjacent free blocks into a single block spanning
both extents. -/
def coalesce : Heap → Heap
  | [] => []
  | a :: rest => coalesceStep a (coalesce rest)

/-- Operation `free(pointer)` (spec §4.2): marks the block free and coalesces with
adjacent free blocks. -/
def heapFree (h : Heap) (p : Nat) : Option Heap :=
  (markFree p 0 h).map coalesce

/-- No two adjacent blocks are both free (the coalescing invariant). -/
def noAdjFree : Heap → Bool
  | a :: b :: rest => !(a.free && b.free) && noAdjFree (b :: rest)
  | _ => true

/-- Total extent of the partition: payload plus header of every block. -/
def heapTotal (h : Heap) : Nat := (h.map (fun b => b.size + HDR)).sum

/-- Result of a kernel call: success, an error code, or suspension of the
calling thread (spec §5 calls the latter a suspension point). -/
inductive CallResult (α : Type) where
  | ok (val : α)
  | err (e : KErr)
  | blocked
deriving Repr, DecidableEq

/-- Modelled from the spec: `k_heap_alloc` (the kernel heap API called in
`part3/memory/src/main.c`) is absent from the repository.  Spec §4.2 and
§5: allocation "never blocks" for every timeout mode; exhaustion is
`OUT_OF_MEMORY`. -/
def k_heap_alloc (h : Heap) (size : Nat) (t : Timeout) : CallResult (Nat × Heap) :=
  match t, heapAlloc h size with
  | _, some r => .ok r
  | _, none => .err .OUT_OF_MEMORY

/-- Modelled from the spec: `k_heap_free`; freeing a pointer that is not
currently allocated is a contract violation (`none`). -/
def k_heap_free (h : Heap) (p : Nat) : Option Heap := heapFree h p

/-! ## Slab allocator (spec §4.3, scenario §8.2)

Modelled from the spec: the slab implementation behind
`K_MEM_SLAB_DEFINE(my_slab, 32, 8, 4)` in
`src/docs/examples/part3/memory/src/main.c` is not part of the
repository.  Per §4.3 and the data model (§3), the slab has fixed block
size, fixed block count `N`, a free structure, and the invariant
`allocated + free == N`; allocation pops one block in O(1) and never
blocks, failing once all `N` blocks are in use. -/

structure MemSlab where
  blockSize : Nat
  numBlocks : Nat
  numUsed : Nat
deriving Repr, DecidableEq

/-- Snapshot `k_mem_slab_num_free_get`: free blocks remaining. -/
def k_mem_slab_num_free_get (s : MemSlab) : Nat := s.numBlocks - s.numUsed

/-- A freshly defined slab (`K_MEM_SLAB_DEFINE`): all blocks free. -/
def MemSlab.init (blockSize numBlocks : Nat) : MemSlab :=
  ⟨blockSize, numBlocks, 0⟩

/-- Modelled from the spec: `k_mem_slab_alloc` — pops one free block if
any remain, else fails with `OUT_OF_MEMORY`; never blocks (§4.3, §5),
whatever the timeout. -/
def k_mem_slab_alloc (s : MemSlab) (t : Timeout) : CallResult MemSlab :=
  match t with
  | _ =>
    if s.numUsed < s.numBlocks then .ok { s with numUsed := s.numUsed + 1 }
    else .err .OUT_OF_MEMORY

/-- Modelled from the spec: `k_mem_slab_free` — pushes an allocated block
back onto the free structure. -/
def k_mem_slab_free (s : MemSlab) : MemSlab :=
  { s with numUsed := s.numUsed - 1 }

/-- One allocate or free call on the slab. -/
inductive SlabOp where
  | alloc
  | free
deriving Repr, DecidableEq

/-- Run a sequence of slab operations.  A sequence is rejected (`none`)
when an allocation fails or a free releases a block that was never
allocated (double-free / foreign-pointer contract violation, §4.2/§7). -/
def runSlab : MemSlab → List SlabOp → Option MemSlab
  | s, [] => some s
  | s, .alloc :: ops =>
    match k_mem_slab_alloc s .noWait with
    | .ok s' => runSlab s' ops
    | _ => none
  | s, .free :: ops =>
    if 0 < s.numUsed then runSlab (k_mem_slab_free s) ops else none

/-- Number of `alloc` operations in a sequence. -/
def countAllocs : List SlabOp → Nat
  | [] => 0
  | .alloc :: ops => countAllocs ops + 1
  | .free :: ops => countAllocs ops

/-- Number of `free` operations in a sequence. -/
def countFrees : List SlabOp → Nat
  | [] => 0
  | .alloc :: ops => countFrees ops
  | .free :: ops => countFrees ops + 1

/-! ## Counting semaphore (spec §4.4)

Modelled from the spec: the semaphore behind `K_SEM_DEFINE` in
`src/docs/examples/part4/semaphore/src/main.c` is not part of the
repository.  Per §3/§4.4: current count, maximum count (limit) and a
wait queue; `give` wakes a waiter if one is parked, otherwise increments
the count clamped at the limit; `take` decrements a positive count or
parks the caller.  The count is carried as an integer so that the claimed
lower bound is a real statement, not a typing artefact. -/

structure KSem where
  count : Int
  limit : Int
  waiters : Nat
deriving Repr, DecidableEq

/-- Initializer `K_SEM_DEFINE(name, initial, limit)`: no thread waits initially. -/
def KSem.init (initial limit : Int) : KSem := ⟨initial, limit, 0⟩

/-- Modelled from the spec: `k_sem_give` (§4.4) — "if any thread is
waiting, one is woken instead of incrementing"; otherwise "increments
count up to `limit` (extra gives beyond `limit` are clamped)". -/
def k_sem_give (s : KSem) : KSem :=
  if 0 < s.waiters then { s with waiters := s.waiters - 1 }
  else { s with count := min (s.count + 1) s.limit }

/-- Modelled from the spec: `k_sem_take` with `K_FOREVER` (§4.4) — "if
count > 0, decrements and returns immediately; otherwise blocks",
parking the caller on the wait queue. -/
def k_sem_take (s : KSem) : KSem :=
  if 0 < s.count then { s with count := s.count - 1 }
  else { s with waiters := s.waiters + 1 }

/-- One semaphore call. -/
inductive SemOp where
  | give
  | take
deriving Repr, DecidableEq

/-- Apply one semaphore call. -/
def semStep (s : KSem) : SemOp → KSem
  | .give => k_sem_give s
  | .take => k_sem_take s

/-- Run a call sequence. -/
def semRun (s : KSem) (ops : List SemOp) : KSem := ops.foldl semStep s

/-- The semaphore invariant of spec §3: `0 ≤ count ≤ limit`. -/
def SemInv (s : KSem) : Prop := 0 ≤ s.count ∧ s.count ≤ s.limit

instance (s : KSem) : Decidable (SemInv s) := by
  unfold SemInv; infer_instance

/-! ## Mutex-protected counter (spec §4.5, §8.5)

The two incrementing threads are source code
(`src/docs/examples/part4/mutex/src/main.c`, `increment_thread`): each
runs 10 iterations of `k_mutex_lock(FOREVER)`; `local = shared_counter`;
`shared_counter = local + 1`; `k_mutex_unlock()`.  The mutex itself is
modelled from the spec (§4.5): `lock` succeeds only when unowned, the
owner alone may unlock.  The interleaving semantics makes every memory
access of the critical section a separate step; a schedule is a list of
thread choices, and a thread whose lock attempt finds the mutex owned
simply does not advance (`lock(FOREVER)` blocks). -/

/-- Position of a thread inside one loop iteration of
`increment_thread`. -/
inductive Phase where
  /-- Outside the critical section, about to call `k_mutex_lock`. -/
  | idle
  /-- Holds the mutex; has not yet read `shared_counter`. -/
  | locked
  /-- Has executed `int local = shared_counter` (value recorded). -/
  | readDone (localVal : Nat)
  /-- Has executed `shared_counter = local + 1`. -/
  | writeDone
deriving Repr, DecidableEq

/-- One thread of the mutex example: completed iterations and current
phase. -/
structure ThreadSt where
  iters : Nat
  phase : Phase
deriving Repr, DecidableEq

/-- The whole mutex-example system: the shared counter, the mutex owner
(`none` = unlocked), and the two threads (`false` = thread 1, `true` =
thread 2). -/
structure MutexSys where
  shared_counter : Nat
  owner : Option Bool
  t0 : ThreadSt
  t1 : ThreadSt
deriving Repr, DecidableEq

/-- Initial state of `main`: counter 0, mutex free, both threads at the
top of their loops. -/
def MutexSys.init : MutexSys := ⟨0, none, ⟨0, .idle⟩, ⟨0, .idle⟩⟩

/-- Advance thread 1 by one step of `increment_thread`.  A blocked lock
attempt (mutex owned by the other thread, spec §4.5 `lock(FOREVER)`) and
a finished thread (10 iterations done) leave the state unchanged. -/
def stepT0 (s : MutexSys) : MutexSys :=
  match s.t0.phase with
  | .idle =>
    if s.owner = none ∧ s.t0.iters < 10 then
      { s with owner := some false, t0 := ⟨s.t0.iters, .locked⟩ }
    else s
  | .locked => { s with t0 := ⟨s.t0.iters, .readDone s.shared_counter⟩ }
  | .readDone localVal =>
    { s with shared_counter := localVal + 1, t0 := ⟨s.t0.iters, .writeDone⟩ }
  | .writeDone => { s with owner := none, t0 := ⟨s.t0.iters + 1, .idle⟩ }

/-- Advance thread 2 by one step of `increment_thread` (same code as
thread 1, acting on `t1`). -/
def stepT1 (s : MutexSys) : MutexSys :=
  match s.t1.phase with
  | .idle =>
    if s.owner = none ∧ s.t1.iters < 10 then
      { s with owner := some true, t1 := ⟨s.t1.iters, .locked⟩ }
    else s
  | .locked => { s with t1 := ⟨s.t1.iters, .readDone s.shared_counter⟩ }
  | .readDone localVal =>
    { s with shared_counter := localVal + 1, t1 := ⟨s.t1.iters, .writeDone⟩ }
  | .writeDone => { s with owner := none, t1 := ⟨s.t1.iters + 1, .idle⟩ }

/-- Advance the scheduled thread by one step. -/
def threadStep (s : MutexSys) : Bool → MutexSys
  | false => stepT0 s
  | true => stepT1 s

/-- Run a schedule (an arbitrary interleaving of the two threads). -/
def runSched (s : MutexSys) (sched : List Bool) : MutexSys :=
  sched.foldl threadStep s

/-- The increment a thread has written but not yet published by
unlocking: 1 for each thread past its counter write, inside its critical
section. -/
def extraOf (s : MutexSys) : Nat :=
  (if s.t0.phase = Phase.writeDone then 1 else 0) +
  (if s.t1.phase = Phase.writeDone then 1 else 0)

/-- Inductive invariant of the mutex example: a thread inside its
critical section owns the mutex (hence mutual exclusion), the shared
counter accounts for all completed iterations plus the unpublished
increment, a recorded read saw exactly the completed iterations, and
a thread inside the loop body has iterations left. -/
def MutexInv (s : MutexSys) : Prop :=
  (s.t0.phase ≠ .idle → s.owner = some false) ∧
  (s.t1.phase ≠ .idle → s.owner = some true) ∧
  s.shared_counter = s.t0.iters + s.t1.iters + extraOf s ∧
  (∀ l, s.t0.phase = .readDone l → l = s.t0.iters + s.t1.iters) ∧
  (∀ l, s.t1.phase = .readDone l → l = s.t0.iters + s.t1.iters) ∧
  (s.t0.phase ≠ .idle → s.t0.iters < 10) ∧
  (s.t1.phase ≠ .idle → s.t1.iters < 10) ∧
  s.t0.iters ≤ 10 ∧ s.t1.iters ≤ 10

/-! ## Bounded message queue (spec §4.6, §8.4)

Modelled from the spec: the queue behind
`K_MSGQ_DEFINE(sensor_msgq, sizeof(struct sensor_msg), 10, 4)` in
`src/docs/examples/part4/msgq/src/main.c` is not part of the repository.
Per §3/§4.6 it is a fixed-capacity FIFO ring; the ring's byte layout is
abstracted into the list of queued items in arrival order (§5: the ring
is mutated only inside the queue's own critical section, so concurrent
callers see a single serialized sequence of operations). -/

structure MsgQ (α : Type) where
  capacity : Nat
  items : List α
deriving Repr, DecidableEq

/-- Initializer `K_MSGQ_DEFINE`: empty queue of the given capacity. -/
def MsgQ.init (α : Type) (capacity : Nat) : MsgQ α := ⟨capacity, []⟩

/-- Snapshot `k_msgq_num_used_get`: occupied slots. -/
def k_msgq_num_used_get (q : MsgQ α) : Nat := q.items.length

/-- Modelled from the spec: `k_msgq_put` with `K_NO_WAIT` (§4.6, §7) —
copies the item into the tail slot when room exists; on a full queue the
no-wait call fails with `WOULD_BLOCK` and the queue is untouched. -/
def k_msgq_put (q : MsgQ α) (x : α) : Option KErr × MsgQ α :=
  if q.items.length < q.capacity then (none, { q with items := q.items ++ [x] })
  else (some .WOULD_BLOCK, q)

/-- Modelled from the spec: `k_msgq_get` with `K_NO_WAIT` (§4.6, §7) —
takes from the head slot when the queue is non-empty; on an empty queue
the no-wait call fails with `WOULD_BLOCK` and the queue is untouched. -/
def k_msgq_get (q : MsgQ α) : Except KErr α × MsgQ α :=
  match q.items with
  | [] => (.error .WOULD_BLOCK, q)
  | x :: rest => (.ok x, { q with items := rest })

/-- One queue call in a global serialized history. -/
inductive QOp (α : Type) where
  | put (x : α)
  | get
deriving Repr, DecidableEq

/-- A queue together with the histories of successfully put and
successfully got items, in order. -/
structure QTrace (α : Type) where
  q : MsgQ α
  puts : List α
  gets : List α
deriving Repr, DecidableEq

/-- Apply one call, recording it in the history when it succeeds. -/
def qStep (t : QTrace α) : QOp α → QTrace α
  | .put x =>
    match k_msgq_put t.q x with
    | (none, q') => { t with q := q', puts := t.puts ++ [x] }
    | (some _, _) => t
  | .get =>
    match k_msgq_get t.q with
    | (.ok x, q') => { t with q := q', gets := t.gets ++ [x] }
    | (.error _, _) => t

/-- Run a serialized operation history against an initially empty
queue. -/
def qRun (α : Type) (capacity : Nat) (ops : List (QOp α)) : QTrace α :=
  ops.foldl qStep ⟨MsgQ.init α capacity, [], []⟩

/-! ## Deferred work queue (spec §4.7)

Modelled from the spec: the work queue behind `k_work_submit` /
`k_work_is_pending` called by `src/examples/part3/workqueue/src/main.c`
is not part of the repository.  Per §3/§4.7 a work item carries an
execution state; `submit` on an IDLE item marks it QUEUED and appends it
to the pending list, and on a QUEUED item is a no-op (submission
coalescing).  The model tracks one item: its state, how many times it
sits in the pending list, and how many times the worker has executed
it. -/

inductive WorkState where
  | idle
  | queued
  | running
  | cancelled
deriving Repr, DecidableEq

/-- A work item and its bookkeeping: `pendingOcc` counts its occurrences
in the work queue's pending list, `execs` the completed executions of its
handler by the worker thread. -/
structure WorkSys where
  itemState : WorkState
  pendingOcc : Nat
  execs : Nat
deriving Repr, DecidableEq

/-- Initializer `K_WORK_DEFINE` / `k_work_init`: item starts IDLE, never yet run. -/
def WorkSys.init : WorkSys := ⟨.idle, 0, 0⟩

/-- Modelled from the spec: `k_work_submit` (§4.7) — "if `item` is IDLE,
marks it QUEUED, appends to the pending list ...; if already QUEUED, this
is a no-op (submission coalescing — at most one pending execution per
item)". -/
def k_work_submit (s : WorkSys) : WorkSys :=
  match s.itemState with
  | .idle => { s with itemState := .queued, pendingOcc := s.pendingOcc + 1 }
  | .queued => s
  | .running => s
  | .cancelled => s

/-- Snapshot `k_work_is_pending`: the item is QUEUED. -/
def k_work_is_pending (s : WorkSys) : Bool := s.itemState = .queued

/-- Modelled from the spec: the worker thread dequeues one pending
occurrence of the item and runs its handler to completion (§4.7), after
which the item is IDLE again; with nothing pending it idles. -/
def workerStep (s : WorkSys) : WorkSys :=
  if 0 < s.pendingOcc then
    { itemState := .idle, pendingOcc := s.pendingOcc - 1, execs := s.execs + 1 }
  else s

/-! ## Ring-buffer index arithmetic of the semaphore example

Embedded from the source
(`src/docs/examples/part4/semaphore/src/main.c`): `BUFFER_SIZE` is 5,
`write_idx` and `read_idx` start at 0, and after each buffer access the
producer executes `write_idx = (write_idx + 1) % BUFFER_SIZE` (line 40)
and the consumer `read_idx = (read_idx + 1) % BUFFER_SIZE` (line 66).
The indices are C `int`s, hence `Int` here; C's `%` agrees with `Int.emod`
on non-negative operands. -/

def BUFFER_SIZE : Int := 5

/-- One index update of the producer/consumer: `(idx + 1) % BUFFER_SIZE`. -/
def advanceIdx (idx : Int) : Int := (idx + 1) % BUFFER_SIZE

/-- Value of `write_idx` when the producer makes its `n`-th buffer
access (`n` earlier updates have run; the source initializes it to 0). -/
def write_idx_at (n : Nat) : Int := advanceIdx^[n] 0

/-- Value of `read_idx` when the consumer makes its `n`-th buffer
access. -/
def read_idx_at (n : Nat) : Int := advanceIdx^[n] 0

/-! ## Heap lemmas -/

/-- After a coalescing pass no two adjacent free blocks remain. -/
theorem noAdjFree_coalesce (h : Heap) : noAdjFree (coalesce h) = true := by
  induction h with
  | nil => rfl
  | cons a rest ih =>
    rw [coalesce]
    cases hco : coalesce rest with
    | nil => rfl
    | cons c tl =>
      rw [hco] at ih
      rw [coalesceStep]
      by_cases hac : (a.free && c.free) = true
      · rw [if_pos hac]
        cases tl with
        | nil => rfl
        | cons d tl2 =>
          have hc : c.free = true := ((Bool.and_eq_true _ _).mp hac).2
          have ih2 : (!(c.free && d.free) && noAdjFree (d :: tl2)) = true := ih
          rw [hc] at ih2
          exact ih2
      · rw [if_neg hac]
        show (!(a.free && c.free) && noAdjFree (c :: tl)) = true
        rw [ih, Bool.and_true]
        cases hx : (a.free && c.free) with
        | true => exact absurd hx hac
        | false => rfl

/-- Coalescing preserves the total extent of the partition. -/
theorem heapTotal_coalesce (h : Heap) : heapTotal (coalesce h) = heapTotal h := by
  induction h with
  | nil => rfl
  | cons a rest ih =>
    rw [coalesce]
    cases hco : coalesce rest with
    | nil =>
      rw [hco] at ih
      simp only [coalesceStep, heapTotal, List.map_cons, List.sum_cons,
        List.map_nil, List.sum_nil] at ih ⊢
      omega
    | cons c tl =>
      rw [hco] at ih
      rw [coalesceStep]
      by_cases hac : (a.free && c.free) = true
      · rw [if_pos hac]
        simp only [heapTotal, List.map_cons, List.sum_cons] at ih ⊢
        omega
      · rw [if_neg hac]
        simp only [heapTotal, List.map_cons, List.sum_cons] at ih ⊢
        omega

/-- Marking a block free preserves the total extent. -/
theorem markFree_total (p : Nat) (h : Heap) :
    ∀ (off : Nat) (h' : Heap), markFree p off h = some h' →
      heapTotal h' = heapTotal h := by
  induction h with
  | nil => intro off h' hmk; simp [markFree] at hmk
  | cons b rest ih =>
    intro off h' hmk
    rw [markFree] at hmk
    by_cases hc : (decide (off + HDR = p) && !b.free) = true
    · rw [if_pos hc] at hmk
      simp only [Option.some.injEq] at hmk
      subst hmk
      simp [heapTotal]
    · rw [if_neg hc] at hmk
      cases hrec : markFree p (off + HDR + b.size) rest with
      | none => rw [hrec] at hmk; simp at hmk
      | some rest' =>
        rw [hrec] at hmk
        simp only [Option.some.injEq] at hmk
        subst hmk
        have hr := ih _ _ hrec
        simp only [heapTotal, List.map_cons, List.sum_cons] at hr ⊢
        omega

/-! ## Claim theorems -/

/-- C1: on the 1024-byte heap of `demo_k_heap`, starting fully free, the
allocations of 64, 128 and 256 bytes all succeed, the subsequent 800-byte
allocation fails with `OUT_OF_MEMORY`, and after freeing the 128-byte
block, then the 64-byte block, then the 256-byte block, the free list is
one maximal free region equal to the full original capacity. -/
theorem heap_1024_demo_scenario :
    k_heap_alloc (Heap.init 1024) 64 .noWait
      = .ok (8, [⟨64, false⟩, ⟨944, true⟩]) ∧
    k_heap_alloc [⟨64, false⟩, ⟨944, true⟩] 128 .noWait
      = .ok (80, [⟨64, false⟩, ⟨128, false⟩, ⟨808, true⟩]) ∧
    k_heap_alloc [⟨64, false⟩, ⟨128, false⟩, ⟨808, true⟩] 256 .noWait
      = .ok (216, [⟨64, false⟩, ⟨128, false⟩, ⟨256, false⟩, ⟨544, true⟩]) ∧
    k_heap_alloc [⟨64, false⟩, ⟨128, false⟩, ⟨256, false⟩, ⟨544, true⟩] 800 .noWait
      = .err .OUT_OF_MEMORY ∧
    k_heap_free [⟨64, false⟩, ⟨128, false⟩, ⟨256, false⟩, ⟨544, true⟩] 80
      = some [⟨64, false⟩, ⟨128, true⟩, ⟨256, false⟩, ⟨544, true⟩] ∧
    k_heap_free [⟨64, false⟩, ⟨128, true⟩, ⟨256, false⟩, ⟨544, true⟩] 8
      = some [⟨200, true⟩, ⟨256, false⟩, ⟨544, true⟩] ∧
    k_heap_free [⟨200, true⟩, ⟨256, false⟩, ⟨544, true⟩] 216
      = some (Heap.init 1024) := by
  decide

/-- C7: whenever `free(pointer)` succeeds, no two adjacent free blocks
remain separate in the resulting heap — adjacent free blocks have been
coalesced into single blocks spanning both extents, the total extent of
the partition being preserved. -/
theorem heap_free_coalesces (h : Heap) (p : Nat) (h' : Heap)
    (hfree : k_heap_free h p = some h') :
    noAdjFree h' = true ∧ heapTotal h' = heapTotal h := by
  unfold k_heap_free heapFree at hfree
  cases hmk : markFree p 0 h with
  | none => rw [hmk] at hfree; simp at hfree
  | some m =>
    rw [hmk] at hfree
    simp only [Option.map_some', Option.some.injEq] at hfree
    subst hfree
    exact ⟨noAdjFree_coalesce m, by rw [heapTotal_coalesce, markFree_total p h 0 m hmk]⟩

/-- Witness for C7: freeing the 64-byte block next to an already-free
128-byte block coalesces them into one 200-byte extent. -/
theorem heap_free_coalesces_witness :
    noAdjFree [⟨200, true⟩] = true ∧
      heapTotal [⟨200, true⟩] = heapTotal [⟨64, false⟩, ⟨128, true⟩] :=
  heap_free_coalesces [⟨64, false⟩, ⟨128, true⟩] 8 [⟨200, true⟩] (by decide)

/-- C10: the ring indices of the semaphore producer/consumer example stay
inside `[0, BUFFER_SIZE)` at every buffer access: starting from 0, every
update `(idx + 1) % BUFFER_SIZE` keeps them in bounds, so every
`buffer[write_idx]` and `buffer[read_idx]` access is within the 5-element
buffer. -/
theorem buffer_indices_in_bounds (n : Nat) :
    (0 ≤ write_idx_at n ∧ write_idx_at n < BUFFER_SIZE) ∧
    (0 ≤ read_idx_at n ∧ read_idx_at n < BUFFER_SIZE) := by
  have key : ∀ m : Nat, 0 ≤ advanceIdx^[m] 0 ∧ advanceIdx^[m] 0 < BUFFER_SIZE := by
    intro m
    cases m with
    | zero => exact ⟨le_refl 0, by decide⟩
    | succ k =>
      rw [Function.iterate_succ_apply']
      unfold advanceIdx BUFFER_SIZE
      constructor
      · exact Int.emod_nonneg _ (by decide)
      · exact Int.emod_lt_of_pos _ (by decide)
  exact ⟨key n, key n⟩

/-! ## Slab lemmas -/

/-- Accepted slab histories conserve blocks: the block count is fixed and
the used count changes by allocations minus frees. -/
theorem runSlab_counts (ops : List SlabOp) :
    ∀ (s s' : MemSlab), runSlab s ops = some s' →
      s'.numBlocks = s.numBlocks ∧
      s'.numUsed + countFrees ops = s.numUsed + countAllocs ops := by
  induction ops with
  | nil =>
    intro s s' h
    rw [runSlab] at h
    simp only [Option.some.injEq] at h
    subst h
    exact ⟨rfl, rfl⟩
  | cons op rest ih =>
    intro s s' h
    cases op with
    | alloc =>
      rw [runSlab] at h
      unfold k_mem_slab_alloc at h
      by_cases hc : s.numUsed < s.numBlocks
      · rw [if_pos hc] at h
        have h2 : runSlab { s with numUsed := s.numUsed + 1 } rest = some s' := h
        obtain ⟨hb, hu⟩ := ih _ _ h2
        refine ⟨hb, ?_⟩
        simp only [countAllocs, countFrees] at *
        omega
      · rw [if_neg hc] at h
        exact absurd h (by simp)
    | free =>
      rw [runSlab] at h
      by_cases hc : 0 < s.numUsed
      · rw [if_pos hc] at h
        obtain ⟨hb, hu⟩ := ih _ _ h
        refine ⟨hb, ?_⟩
        simp only [countAllocs, countFrees, k_mem_slab_free] at *
        omega
      · rw [if_neg hc] at h
        exact absurd h (by simp)

/-- C2: on the 8-block slab of `demo_mem_slab`, starting fully free,
8 consecutive allocations succeed, the 9th fails with `OUT_OF_MEMORY`,
after freeing all 8 blocks one more allocation succeeds, and after any
accepted history with as many frees as allocations the slab reports the
original free count. -/
theorem slab_8x32_scenario_and_conservation :
    runSlab (MemSlab.init 32 8) (List.replicate 8 .alloc) = some ⟨32, 8, 8⟩ ∧
    k_mem_slab_alloc ⟨32, 8, 8⟩ .noWait = .err .OUT_OF_MEMORY ∧
    runSlab ⟨32, 8, 8⟩ (List.replicate 8 .free) = some (MemSlab.init 32 8) ∧
    k_mem_slab_alloc (MemSlab.init 32 8) .noWait = .ok ⟨32, 8, 1⟩ ∧
    (∀ (s s' : MemSlab) (ops : List SlabOp), runSlab s ops = some s' →
      countAllocs ops = countFrees ops →
      k_mem_slab_num_free_get s' = k_mem_slab_num_free_get s) := by
  refine ⟨by decide, by decide, by decide, by decide, ?_⟩
  intro s s' ops hrun hk
  obtain ⟨hb, hu⟩ := runSlab_counts ops s s' hrun
  unfold k_mem_slab_num_free_get
  omega

/-- Witness for C2: the general conservation conjunct applied to one
allocation followed by one free on the fresh 8-block slab. -/
theorem slab_conservation_witness :
    runSlab (MemSlab.init 32 8) [.alloc, .free] = some (MemSlab.init 32 8) ∧
    countAllocs [SlabOp.alloc, SlabOp.free] = countFrees [SlabOp.alloc, SlabOp.free] ∧
    k_mem_slab_num_free_get (MemSlab.init 32 8) =
      k_mem_slab_num_free_get (MemSlab.init 32 8) :=
  ⟨by decide, by decide,
    slab_8x32_scenario_and_conservation.2.2.2.2 (MemSlab.init 32 8)
      (MemSlab.init 32 8) [.alloc, .free] (by decide) (by decide)⟩

/-! ## Semaphore lemmas -/

/-- One semaphore call preserves `0 ≤ count ≤ limit`. -/
theorem semInv_step (s : KSem) (op : SemOp) (h : SemInv s) :
    SemInv (semStep s op) := by
  obtain ⟨h0, h1⟩ := h
  cases op with
  | give =>
    show SemInv (k_sem_give s)
    unfold k_sem_give
    by_cases hw : 0 < s.waiters
    · rw [if_pos hw]; exact ⟨h0, h1⟩
    · rw [if_neg hw]
      exact ⟨le_min (by omega) (by omega), min_le_right _ _⟩
  | take =>
    show SemInv (k_sem_take s)
    unfold k_sem_take
    by_cases hc : 0 < s.count
    · rw [if_pos hc]
      refine ⟨?_, ?_⟩
      · show (0 : Int) ≤ s.count - 1
        omega
      · show s.count - 1 ≤ s.limit
        omega
    · rw [if_neg hc]; exact ⟨h0, h1⟩

/-- C3: for every semaphore whose count starts within `[0, limit]` and
every sequence of `give`/`take` calls, the count stays within
`[0, limit]`: clamped `give` never accumulates past the limit, blocked
`take` never drives the count negative, and a `give` that finds a waiter
wakes one waiter instead of incrementing the count. -/
theorem sem_count_bounded :
    (∀ (s : KSem) (ops : List SemOp), SemInv s → SemInv (semRun s ops)) ∧
    (∀ s : KSem, 0 < s.waiters →
      (k_sem_give s).count = s.count ∧ (k_sem_give s).waiters = s.waiters - 1) := by
  constructor
  · intro s ops
    induction ops generalizing s with
    | nil => intro h; exact h
    | cons op rest ih =>
      intro h
      rw [semRun, List.foldl_cons]
      exact ih (semStep s op) (semInv_step s op h)
  · intro s hw
    unfold k_sem_give
    rw [if_pos hw]
    exact ⟨rfl, rfl⟩

/-- Witness for C3: the `empty_slots` semaphore of the example
(`K_SEM_DEFINE(empty_slots, 5, 5)`) under a take-give-give history, and a
give on a semaphore with one waiter parked. -/
theorem sem_count_bounded_witness :
    SemInv (semRun (KSem.init 5 5) [.take, .give, .give]) ∧
    ((k_sem_give ⟨0, 5, 1⟩).count = (0 : Int) ∧
      (k_sem_give ⟨0, 5, 1⟩).waiters = 1 - 1) :=
  ⟨sem_count_bounded.1 (KSem.init 5 5) [.take, .give, .give] (by decide),
    sem_count_bounded.2 ⟨0, 5, 1⟩ (by decide)⟩

/-! ## Message-queue lemmas -/

/-- The queue history invariant: the successfully put items are exactly
the successfully got items followed by the items still queued. -/
theorem qtrace_inv (α : Type) (ops : List (QOp α)) :
    ∀ t : QTrace α, t.puts = t.gets ++ t.q.items →
      (ops.foldl qStep t).puts
        = (ops.foldl qStep t).gets ++ (ops.foldl qStep t).q.items := by
  induction ops with
  | nil => intro t h; exact h
  | cons op rest ih =>
    intro t h
    rw [List.foldl_cons]
    apply ih
    cases op with
    | put x =>
      simp only [qStep, k_msgq_put]
      by_cases hc : t.q.items.length < t.q.capacity
      · rw [if_pos hc]
        show t.puts ++ [x] = t.gets ++ (t.q.items ++ [x])
        rw [h, List.append_assoc]
      · rw [if_neg hc]
        exact h
    | get =>
      simp only [qStep, k_msgq_get]
      cases hit : t.q.items with
      | nil => exact h
      | cons x rest2 =>
        show t.puts = (t.gets ++ [x]) ++ rest2
        rw [h, hit]
        simp

/-- C5: items pass through the bounded queue in FIFO order — in any
serialized history of put/get calls on an initially empty queue (the
queue serializes concurrent callers in its internal critical section),
the i-th successfully got item is the i-th successfully put item. -/
theorem msgq_fifo (α : Type) (capacity : Nat) (ops : List (QOp α)) (i : Nat)
    (h1 : i < (qRun α capacity ops).gets.length)
    (h2 : i < (qRun α capacity ops).puts.length) :
    (qRun α capacity ops).gets.get ⟨i, h1⟩ = (qRun α capacity ops).puts.get ⟨i, h2⟩ := by
  have hinv : (qRun α capacity ops).puts
      = (qRun α capacity ops).gets ++ (qRun α capacity ops).q.items :=
    qtrace_inv α ops ⟨MsgQ.init α capacity, [], []⟩ rfl
  have key : ∀ (l1 l2 : List α) (h : l1 = l2) (j : Nat) (hj1 : j < l1.length)
      (hj2 : j < l2.length), l1.get ⟨j, hj1⟩ = l2.get ⟨j, hj2⟩ := by
    intro l1 l2 h j hj1 hj2
    subst h
    rfl
  have hlen : i < ((qRun α capacity ops).gets ++ (qRun α capacity ops).q.items).length := by
    rw [← hinv]
    exact h2
  calc (qRun α capacity ops).gets.get ⟨i, h1⟩
      = ((qRun α capacity ops).gets ++ (qRun α capacity ops).q.items).get ⟨i, hlen⟩ :=
        (List.get_append i h1).symm
    _ = (qRun α capacity ops).puts.get ⟨i, h2⟩ := (key _ _ hinv i h2 hlen).symm

/-- Witness for C5: two puts then a get on the 10-slot sensor queue; the
first got item equals the first put item. -/
theorem msgq_fifo_witness :
    0 < (qRun Nat 10 [.put 3, .put 4, .get]).gets.length ∧
    0 < (qRun Nat 10 [.put 3, .put 4, .get]).puts.length ∧
    (qRun Nat 10 [.put 3, .put 4, .get]).gets.get ⟨0, by decide⟩
      = (qRun Nat 10 [.put 3, .put 4, .get]).puts.get ⟨0, by decide⟩ :=
  ⟨by decide, by decide, msgq_fifo Nat 10 [.put 3, .put 4, .get] 0 (by decide) (by decide)⟩

/-- C6: a no-wait `put` on a full queue fails with `WOULD_BLOCK` leaving
the queue untouched, and a no-wait `get` on an empty queue fails with
`WOULD_BLOCK` leaving the queue untouched; neither call suspends the
caller. -/
theorem msgq_nowait_would_block (α : Type) (q : MsgQ α) (x : α) :
    (q.items.length = q.capacity → k_msgq_put q x = (some .WOULD_BLOCK, q)) ∧
    (q.items = [] → k_msgq_get q = (.error .WOULD_BLOCK, q)) := by
  constructor
  · intro hfull
    unfold k_msgq_put
    rw [if_neg (by omega)]
  · intro hempty
    unfold k_msgq_get
    rw [hempty]

/-- Witness for C6: a full one-slot queue rejects a put, an empty queue
rejects a get. -/
theorem msgq_nowait_would_block_witness :
    (k_msgq_put (MsgQ.mk 1 [7]) 9 = (some .WOULD_BLOCK, MsgQ.mk 1 [7])) ∧
    (k_msgq_get (MsgQ.init Nat 10) = (.error .WOULD_BLOCK, MsgQ.init Nat 10)) :=
  ⟨(msgq_nowait_would_block Nat (MsgQ.mk 1 [7]) 9).1 rfl,
    (msgq_nowait_would_block Nat (MsgQ.init Nat 10) 0).2 rfl⟩

/-- C8: `submit` on a QUEUED work item is a no-op, so submitting the same
item twice while it is QUEUED leaves exactly one pending occurrence and
the worker executes it exactly once — after the double submission of
`simulate_isr`/`main`, draining the queue yields one execution, and
further worker passes add none. -/
theorem work_submit_coalesced :
    (∀ s : WorkSys, s.itemState = .queued → k_work_submit s = s) ∧
    k_work_submit (k_work_submit WorkSys.init) = k_work_submit WorkSys.init ∧
    (k_work_submit (k_work_submit WorkSys.init)).pendingOcc = 1 ∧
    workerStep (k_work_submit (k_work_submit WorkSys.init)) = ⟨.idle, 0, 1⟩ ∧
    workerStep (workerStep (k_work_submit (k_work_submit WorkSys.init))) = ⟨.idle, 0, 1⟩ := by
  refine ⟨?_, by decide, by decide, by decide, by decide⟩
  intro s hq
  unfold k_work_submit
  rw [hq]

/-- Witness for C8: the no-op conjunct applied to a QUEUED item with one
pending occurrence. -/
theorem work_submit_coalesced_witness :
    k_work_submit ⟨.queued, 1, 0⟩ = ⟨.queued, 1, 0⟩ :=
  work_submit_coalesced.1 ⟨.queued, 1, 0⟩ rfl

/-- C9: heap and slab allocation never suspend the calling thread — for
every allocator state and every timeout mode the call returns at once
with either a success or an `OUT_OF_MEMORY` error, never the `blocked`
outcome that the blocking primitives produce. -/
theorem alloc_never_blocks (h : Heap) (size : Nat) (s : MemSlab) (t : Timeout) :
    ((∃ r, k_heap_alloc h size t = .ok r) ∨
      k_heap_alloc h size t = .err .OUT_OF_MEMORY) ∧
    ((∃ s', k_mem_slab_alloc s t = .ok s') ∨
      k_mem_slab_alloc s t = .err .OUT_OF_MEMORY) := by
  constructor
  · unfold k_heap_alloc
    cases t <;> cases ha : heapAlloc h size with
    | _ => first
      | exact .inl ⟨_, rfl⟩
      | exact .inr rfl
  · unfold k_mem_slab_alloc
    cases t <;> by_cases hc : s.numUsed < s.numBlocks
    all_goals first
      | exact .inl ⟨_, by rw [if_pos hc]⟩
      | exact .inr (by rw [if_neg hc])

/-! ## Mutex-example lemmas -/

/-- One step of thread 1 preserves the invariant. -/
theorem mutexInv_stepT0 (s : MutexSys) (h : MutexInv s) : MutexInv (stepT0 s) := by
  obtain ⟨i0, i1, hc, r0, r1, l0, l1, b0, b1⟩ := h
  cases hp : s.t0.phase with
  | idle =>
    have hstep : stepT0 s = if s.owner = none ∧ s.t0.iters < 10 then
        { s with owner := some false, t0 := ⟨s.t0.iters, .locked⟩ } else s := by
      unfold stepT0; rw [hp]
    rw [hstep]
    by_cases hg : s.owner = none ∧ s.t0.iters < 10
    · rw [if_pos hg]
      obtain ⟨hown, hlt⟩ := hg
      have ht1 : s.t1.phase = .idle := by
        by_contra hne
        have h2 := i1 hne
        rw [hown] at h2
        exact absurd h2 (by simp)
      refine ⟨fun _ => rfl, ?_, ?_, ?_, ?_, fun _ => hlt, ?_, b0, b1⟩
      · intro hne; exact absurd ht1 hne
      · show s.shared_counter = s.t0.iters + s.t1.iters + extraOf _
        rw [hc]
        simp [extraOf, hp, ht1]
      · intro l hl; exact absurd hl (by simp)
      · intro l hl
        rw [ht1] at hl
        exact absurd hl (by simp)
      · intro hne; exact absurd ht1 hne
    · rw [if_neg hg]
      exact ⟨i0, i1, hc, r0, r1, l0, l1, b0, b1⟩
  | locked =>
    have hne0 : s.t0.phase ≠ .idle := by rw [hp]; simp
    have hown := i0 hne0
    have ht1 : s.t1.phase = .idle := by
      by_contra hne
      have h2 := i1 hne
      rw [hown] at h2
      exact absurd h2 (by simp)
    have hextra : extraOf s = 0 := by simp [extraOf, hp, ht1]
    have hstep : stepT0 s = { s with t0 := ⟨s.t0.iters, .readDone s.shared_counter⟩ } := by
      unfold stepT0; rw [hp]
    rw [hstep]
    refine ⟨fun _ => hown, ?_, ?_, ?_, ?_, fun _ => l0 hne0, ?_, b0, b1⟩
    · intro hne; exact absurd ht1 hne
    · show s.shared_counter = s.t0.iters + s.t1.iters + extraOf _
      rw [hc]
      simp [extraOf, hp, ht1]
    · intro l hl
      have hlv : s.shared_counter = l := by
        injection hl
      rw [hc, hextra] at hlv
      show l = s.t0.iters + s.t1.iters
      omega
    · intro l hl
      rw [ht1] at hl
      exact absurd hl (by simp)
    · intro hne; exact absurd ht1 hne
  | readDone lv =>
    have hne0 : s.t0.phase ≠ .idle := by rw [hp]; simp
    have hown := i0 hne0
    have ht1 : s.t1.phase = .idle := by
      by_contra hne
      have h2 := i1 hne
      rw [hown] at h2
      exact absurd h2 (by simp)
    have hlv : lv = s.t0.iters + s.t1.iters := r0 lv hp
    have hstep : stepT0 s
        = { s with shared_counter := lv + 1, t0 := ⟨s.t0.iters, .writeDone⟩ } := by
      unfold stepT0; rw [hp]
    rw [hstep]
    refine ⟨fun _ => hown, ?_, ?_, ?_, ?_, fun _ => l0 hne0, ?_, b0, b1⟩
    · intro hne; exact absurd ht1 hne
    · show lv + 1 = s.t0.iters + s.t1.iters + extraOf _
      simp [extraOf, ht1]
      omega
    · intro l hl; exact absurd hl (by simp)
    · intro l hl
      rw [ht1] at hl
      exact absurd hl (by simp)
    · intro hne; exact absurd ht1 hne
  | writeDone =>
    have hne0 : s.t0.phase ≠ .idle := by rw [hp]; simp
    have hown := i0 hne0
    have ht1 : s.t1.phase = .idle := by
      by_contra hne
      have h2 := i1 hne
      rw [hown] at h2
      exact absurd h2 (by simp)
    have hstep : stepT0 s = { s with owner := none, t0 := ⟨s.t0.iters + 1, .idle⟩ } := by
      unfold stepT0; rw [hp]
    rw [hstep]
    refine ⟨?_, ?_, ?_, ?_, ?_, ?_, ?_, ?_, b1⟩
    · intro hne; exact absurd rfl hne
    · intro hne; exact absurd ht1 hne
    · show s.shared_counter = s.t0.iters + 1 + s.t1.iters + extraOf _
      rw [hc]
      simp [extraOf, hp, ht1]
      omega
    · intro l hl; exact absurd hl (by simp)
    · intro l hl
      rw [ht1] at hl
      exact absurd hl (by simp)
    · intro hne; exact absurd rfl hne
    · intro hne; exact absurd ht1 hne
    · show s.t0.iters + 1 ≤ 10
      have := l0 hne0
      omega

/-- One step of thread 2 preserves the invariant. -/
theorem mutexInv_stepT1 (s : MutexSys) (h : MutexInv s) : MutexInv (stepT1 s) := by
  obtain ⟨i0, i1, hc, r0, r1, l0, l1, b0, b1⟩ := h
  cases hp : s.t1.phase with
  | idle =>
    have hstep : stepT1 s = if s.owner = none ∧ s.t1.iters < 10 then
        { s with owner := some true, t1 := ⟨s.t1.iters, .locked⟩ } else s := by
      unfold stepT1; rw [hp]
    rw [hstep]
    by_cases hg : s.owner = none ∧ s.t1.iters < 10
    · rw [if_pos hg]
      obtain ⟨hown, hlt⟩ := hg
      have ht0 : s.t0.phase = .idle := by
        by_contra hne
        have h2 := i0 hne
        rw [hown] at h2
        exact absurd h2 (by simp)
      refine ⟨?_, fun _ => rfl, ?_, ?_, ?_, ?_, fun _ => hlt, b0, b1⟩
      · intro hne; exact absurd ht0 hne
      · show s.shared_counter = s.t0.iters + s.t1.iters + extraOf _
        rw [hc]
        simp [extraOf, hp, ht0]
      · intro l hl
        rw [ht0] at hl
        exact absurd hl (by simp)
      · intro l hl; exact absurd hl (by simp)
      · intro hne; exact absurd ht0 hne
    · rw [if_neg hg]
      exact ⟨i0, i1, hc, r0, r1, l0, l1, b0, b1⟩
  | locked =>
    have hne1 : s.t1.phase ≠ .idle := by rw [hp]; simp
    have hown := i1 hne1
    have ht0 : s.t0.phase = .idle := by
      by_contra hne
      have h2 := i0 hne
      rw [hown] at h2
      exact absurd h2 (by simp)
    have hextra : extraOf s = 0 := by simp [extraOf, hp, ht0]
    have hstep : stepT1 s = { s with t1 := ⟨s.t1.iters, .readDone s.shared_counter⟩ } := by
      unfold stepT1; rw [hp]
    rw [hstep]
    refine ⟨?_, fun _ => hown, ?_, ?_, ?_, ?_, fun _ => l1 hne1, b0, b1⟩
    · intro hne; exact absurd ht0 hne
    · show s.shared_counter = s.t0.iters + s.t1.iters + extraOf _
      rw [hc]
      simp [extraOf, hp, ht0]
    · intro l hl
      rw [ht0] at hl
      exact absurd hl (by simp)
    · intro l hl
      have hlv : s.shared_counter = l := by
        injection hl
      rw [hc, hextra] at hlv
      show l = s.t0.iters + s.t1.iters
      omega
    · intro hne; exact absurd ht0 hne
  | readDone lv =>
    have hne1 : s.t1.phase ≠ .idle := by rw [hp]; simp
    have hown := i1 hne1
    have ht0 : s.t0.phase = .idle := by
      by_contra hne
      have h2 := i0 hne
      rw [hown] at h2
      exact absurd h2 (by simp)
    have hlv : lv = s.t0.iters + s.t1.iters := r1 lv hp
    have hstep : stepT1 s
        = { s with shared_counter := lv + 1, t1 := ⟨s.t1.iters, .writeDone⟩ } := by
      unfold stepT1; rw [hp]
    rw [hstep]
    refine ⟨?_, fun _ => hown, ?_, ?_, ?_, ?_, fun _ => l1 hne1, b0, b1⟩
    · intro hne; exact absurd ht0 hne
    · show lv + 1 = s.t0.iters + s.t1.iters + extraOf _
      simp [extraOf, ht0]
      omega
    · intro l hl
      rw [ht0] at hl
      exact absurd hl (by simp)
    · intro l hl; exact absurd hl (by simp)
    · intro hne; exact absurd ht0 hne
  | writeDone =>
    have hne1 : s.t1.phase ≠ .idle := by rw [hp]; simp
    have hown := i1 hne1
    have ht0 : s.t0.phase = .idle := by
      by_contra hne
      have h2 := i0 hne
      rw [hown] at h2
      exact absurd h2 (by simp)
    have hstep : stepT1 s = { s with owner := none, t1 := ⟨s.t1.iters + 1, .idle⟩ } := by
      unfold stepT1; rw [hp]
    rw [hstep]
    refine ⟨?_, ?_, ?_, ?_, ?_, ?_, ?_, b0, ?_⟩
    · intro hne; exact absurd ht0 hne
    · intro hne; exact absurd rfl hne
    · show s.shared_counter = s.t0.iters + (s.t1.iters + 1) + extraOf _
      rw [hc]
      simp [extraOf, hp, ht0]
      omega
    · intro l hl
      rw [ht0] at hl
      exact absurd hl (by simp)
    · intro l hl; exact absurd hl (by simp)
    · intro hne; exact absurd ht0 hne
    · intro hne; exact absurd rfl hne
    · show s.t1.iters + 1 ≤ 10
      have := l1 hne1
      omega

/-- The invariant holds along every schedule from any invariant state. -/
theorem mutexInv_runSched (sched : List Bool) :
    ∀ s : MutexSys, MutexInv s → MutexInv (runSched s sched) := by
  induction sched with
  | nil => intro s h; exact h
  | cons i rest ih =>
    intro s h
    show MutexInv (List.foldl threadStep (threadStep s i) rest)
    refine ih (threadStep s i) ?_
    cases i
    · exact mutexInv_stepT0 s h
    · exact mutexInv_stepT1 s h

/-- The initial state of the mutex example satisfies the invariant. -/
theorem mutexInv_init : MutexInv MutexSys.init := by
  refine ⟨?_, ?_, rfl, ?_, ?_, ?_, ?_, ?_, ?_⟩
  · intro hne; exact absurd rfl hne
  · intro hne; exact absurd rfl hne
  · intro l hl; exact absurd hl (by simp [MutexSys.init])
  · intro l hl; exact absurd hl (by simp [MutexSys.init])
  · intro hne; exact absurd rfl hne
  · intro hne; exact absurd rfl hne
  · exact Nat.zero_le _
  · exact Nat.zero_le _

/-- C4: in the mutex example, under every interleaving of the two
incrementing threads (each locking with `K_FOREVER`, reading the shared
counter, writing it plus one, and unlocking, 10 times), once both
threads have completed their 10 iterations the shared counter is exactly
20. -/
theorem mutex_counter_always_20 (sched : List Bool)
    (h0 : (runSched MutexSys.init sched).t0.iters = 10)
    (h1 : (runSched MutexSys.init sched).t1.iters = 10) :
    (runSched MutexSys.init sched).shared_counter = 20 := by
  obtain ⟨i0, i1, hc, r0, r1, l0, l1, b0, b1⟩ :=
    mutexInv_runSched sched MutexSys.init mutexInv_init
  have hp0 : (runSched MutexSys.init sched).t0.phase ≠ Phase.writeDone := by
    intro hw
    have hlt := l0 (by rw [hw]; simp)
    omega
  have hp1 : (runSched MutexSys.init sched).t1.phase ≠ Phase.writeDone := by
    intro hw
    have hlt := l1 (by rw [hw]; simp)
    omega
  have hex : extraOf (runSched MutexSys.init sched) = 0 := by
    unfold extraOf
    rw [if_neg hp0, if_neg hp1]
  rw [hc, h0, h1, hex]

set_option maxRecDepth 4000 in
/-- Witness for C4: the schedule where thread 1 runs its 10 iterations
to completion and then thread 2 runs its 10. -/
theorem mutex_counter_always_20_witness :
    (runSched MutexSys.init
      (List.replicate 40 false ++ List.replicate 40 true)).t0.iters = 10 ∧
    (runSched MutexSys.init
      (List.replicate 40 false ++ List.replicate 40 true)).t1.iters = 10 ∧
    (runSched MutexSys.init
      (List.replicate 40 false ++ List.replicate 40 true)).shared_counter = 20 :=
  ⟨by decide, by decide,
    mutex_counter_always_20 (List.replicate 40 false ++ List.replicate 40 true)
      (by decide) (by decide)⟩
